import Mathlib

/-!
Verification of the incremental range-tracking and reconciliation engine in
`src/Extension/src/LanguageServer/colorization.ts` (class `ColorizationState`).

The TypeScript code is shallowly embedded: positions and ranges become pairs of
integers, the pure geometric helpers (`textToRange`, `shiftRangeAfterRemove`,
`shiftRangeAfterInsert`, `fixRange`, `fixRanges`) become pure Lean functions,
and the stateful operations (`addEdits`, `applyEdits`, `purgeOldVersionedEdits`,
`updateSyntactic`, `updateSemantic`) become explicit state-passing functions on
a `ColorizationState` structure.  The rendering side effects of
`updateColorizationRanges` and `onSettingsChanged` are embedded as event traces
over an abstract event alphabet, mirroring the order of the side-effecting
calls in the two function bodies.
-/

namespace Colorization

/-- Number of members of the `TokenKind` enum before `Count`
(10 syntactic kinds `Identifier` .. `XmlDocTag` and 26 semantic kinds
`Macro` .. `NewDelete`); `TokenKind.Count` in the source. -/
def tokenKindCount : Nat := 36

/-- A `vscode.Position`: a zero-based line and character pair.  Coordinates are
embedded as unbounded integers (JavaScript numbers never overflow in this
code); well-formed positions are non-negative, captured by `wfPos` below. -/
structure Pos where
  line : Int
  character : Int
deriving Repr, DecidableEq

/-- `vscode.Position.isBefore`: strict lexicographic order on (line, character). -/
def Pos.isBefore (a b : Pos) : Prop :=
  a.line < b.line ∨ (a.line = b.line ∧ a.character < b.character)

instance instDecidablePosIsBefore (a b : Pos) : Decidable (Pos.isBefore a b) :=
  inferInstanceAs (Decidable (a.line < b.line ∨ (a.line = b.line ∧ a.character < b.character)))

/-- `vscode.Position.isBeforeOrEqual`: lexicographic order on (line, character). -/
def Pos.isBeforeOrEqual (a b : Pos) : Prop :=
  a.line < b.line ∨ (a.line = b.line ∧ a.character ≤ b.character)

instance instDecidablePosIsBeforeOrEqual (a b : Pos) : Decidable (Pos.isBeforeOrEqual a b) :=
  inferInstanceAs (Decidable (a.line < b.line ∨ (a.line = b.line ∧ a.character ≤ b.character)))

/-- `vscode.Position.isAfterOrEqual`: reversed lexicographic order. -/
def Pos.isAfterOrEqual (a b : Pos) : Prop :=
  b.line < a.line ∨ (b.line = a.line ∧ b.character ≤ a.character)

instance instDecidablePosIsAfterOrEqual (a b : Pos) : Decidable (Pos.isAfterOrEqual a b) :=
  inferInstanceAs (Decidable (b.line < a.line ∨ (b.line = a.line ∧ b.character ≤ a.character)))

/-- `vscode.Position.translate(lineDelta, characterDelta)`. -/
def Pos.translate (p : Pos) (lineDelta characterDelta : Int) : Pos :=
  ⟨p.line + lineDelta, p.character + characterDelta⟩

/-- A `vscode.Range`: a start and an end position.  The `end` field of the
source is renamed `stop` because `end` is a Lean keyword. -/
structure Range where
  start : Pos
  stop : Pos
deriving Repr, DecidableEq

/-- A position with non-negative coordinates. -/
def wfPos (p : Pos) : Prop :=
  0 ≤ p.line ∧ 0 ≤ p.character

instance instDecidableWfPos (p : Pos) : Decidable (wfPos p) :=
  inferInstanceAs (Decidable (0 ≤ p.line ∧ 0 ≤ p.character))

/-- A well-formed range: non-negative coordinates and `start ≤ end`. -/
def wfRange (r : Range) : Prop :=
  wfPos r.start ∧ wfPos r.stop ∧ r.start.isBeforeOrEqual r.stop

instance instDecidableWfRange (r : Range) : Decidable (wfRange r) :=
  inferInstanceAs (Decidable (wfPos r.start ∧ wfPos r.stop ∧ r.start.isBeforeOrEqual r.stop))

/-- One `vscode.TextDocumentContentChangeEvent`: the removed range and the
inserted text. -/
structure Change where
  range : Range
  text : String
deriving Repr, DecidableEq

/-- The `VersionedEdits` interface of the source: a document version together
with the list of changes that produced it. -/
structure VersionedEdits where
  editVersion : Nat
  changes : List Change
deriving Repr, DecidableEq

/-- `ColorizationState.textToRange`: convert an inserted string and its start
position into the range the string occupies after insertion. -/
def textToRange (text : String) (startPosition : Pos) : Range :=
  let parts := text.splitOn "\n"
  let addedLines : Int := (parts.length : Int) - 1
  let newStartLine := startPosition.line
  let newStartCharacter := startPosition.character
  let newEndLine := newStartLine + addedLines
  let lastPartLength : Int := ((parts.getLastD "").length : Int)
  let newEndCharacter :=
    if newStartLine = newEndLine then lastPartLength + newStartCharacter else lastPartLength
  ⟨⟨newStartLine, newStartCharacter⟩, ⟨newEndLine, newEndCharacter⟩⟩

/-- `ColorizationState.shiftRangeAfterRemove`: shift a range back after
removing content before it. -/
def shiftRangeAfterRemove (range : Range) (removeStartPosition removeEndPosition : Pos) : Range :=
  let lineDelta := removeStartPosition.line - removeEndPosition.line
  let startCharacterDelta : Int :=
    if range.start.line = removeEndPosition.line then
      removeStartPosition.character - removeEndPosition.character
    else 0
  let endCharacterDelta : Int :=
    if range.start.line = removeEndPosition.line ∧ range.stop.line = removeEndPosition.line then
      removeStartPosition.character - removeEndPosition.character
    else 0
  ⟨range.start.translate lineDelta startCharacterDelta,
   range.stop.translate lineDelta endCharacterDelta⟩

/-- `ColorizationState.shiftRangeAfterInsert`: shift a range forward after
inserting content before it. -/
def shiftRangeAfterInsert (range : Range) (insertStartPosition insertEndPosition : Pos) : Range :=
  let addedLines := insertEndPosition.line - insertStartPosition.line
  let newStartLine := range.start.line + addedLines
  let newEndLine := range.stop.line + addedLines
  let endOffsetLength : Int :=
    if insertEndPosition.line = insertStartPosition.line then
      insertEndPosition.character - insertStartPosition.character
    else insertEndPosition.character
  let newStartCharacter :=
    if insertEndPosition.line = newStartLine then range.start.character + endOffsetLength
    else range.start.character
  let newEndCharacter :=
    if insertEndPosition.line = newStartLine ∧ insertEndPosition.line = newEndLine then
      range.stop.character + endOffsetLength
    else range.stop.character
  ⟨⟨newStartLine, newStartCharacter⟩, ⟨newEndLine, newEndCharacter⟩⟩

/-- `ColorizationState.fixRange`: adjust a range to account for one replacement
(`removeInsertStartPosition`/`removeEndPosition` delimit the removed region,
`insertEndPosition` is where the inserted text ends when typed at
`removeInsertStartPosition`).  Returns `none` when the replacement consumes the
whole range. -/
def fixRange (range : Range) (removeInsertStartPosition removeEndPosition insertEndPosition : Pos) :
    Option Range :=
  if removeInsertStartPosition.isAfterOrEqual range.stop then
    some range
  else if removeInsertStartPosition.isBeforeOrEqual range.start then
    if removeEndPosition.isAfterOrEqual range.stop then
      none
    else
      let trimmed : Range :=
        if removeEndPosition.isAfterOrEqual range.start then ⟨removeEndPosition, range.stop⟩
        else range
      let shifted := shiftRangeAfterRemove trimmed removeInsertStartPosition removeEndPosition
      some (shiftRangeAfterInsert shifted removeInsertStartPosition insertEndPosition)
  else if removeEndPosition.isAfterOrEqual range.stop then
    some ⟨range.start, insertEndPosition⟩
  else if removeEndPosition.line = range.stop.line then
    some ⟨range.start,
          ⟨insertEndPosition.line,
           insertEndPosition.character + (range.stop.character - removeEndPosition.character)⟩⟩
  else
    let removedLines := removeEndPosition.line - removeInsertStartPosition.line
    let addedLines := insertEndPosition.line - removeInsertStartPosition.line
    let deltaLines := addedLines - removedLines
    some ⟨range.start, ⟨range.stop.line + deltaLines, range.stop.character⟩⟩

/-- `ColorizationState.fixRanges`: push a list of ranges through the changes of
one edit, in change order, dropping ranges that `fixRange` deletes. -/
def fixRanges (originalRanges : List Range) (changes : List Change) : List Range :=
  if originalRanges.isEmpty then originalRanges
  else
    changes.foldl
      (fun ranges change =>
        let insertRange := textToRange change.text change.range.start
        ranges.filterMap
          (fun r => fixRange r change.range.start change.range.stop insertRange.stop))
      originalRanges

/-- `Array.prototype.findIndex`, embedded as an optional index: `none` stands
for the JavaScript return value `-1`. -/
def jsFindIndex? {α : Type} (p : α → Bool) : List α → Option Nat
  | [] => none
  | x :: xs => if p x then some 0 else (jsFindIndex? p xs).map (· + 1)

/-- The per-document mutable fields of `ColorizationState` that the edit /
reconciliation operations read and write.  Range collections indexed by
`TokenKind` become lists of range lists. -/
structure ColorizationState where
  syntacticRanges : List (List Range)
  semanticRanges : List (List Range)
  inactiveRanges : List Range
  versionedEdits : List VersionedEdits
  currentSyntacticVersion : Nat
  lastReceivedSyntacticVersion : Nat
  currentSemanticVersion : Nat
  lastReceivedSemanticVersion : Nat
deriving Repr, DecidableEq

/-- `ColorizationState.addEdits`: append a versioned edit to the log. -/
def addEdits (s : ColorizationState) (changes : List Change) (editVersion : Nat) :
    ColorizationState :=
  { s with versionedEdits := s.versionedEdits ++ [⟨editVersion, changes⟩] }

/-- One iteration of the `forEach` loop in `ColorizationState.applyEdits`:
apply one logged edit to whichever pass has not consumed it yet. -/
def applyEditsStep (s : ColorizationState) (edit : VersionedEdits) : ColorizationState :=
  let s1 :=
    if edit.editVersion > s.currentSyntacticVersion then
      { s with
          syntacticRanges := s.syntacticRanges.map (fun rs => fixRanges rs edit.changes),
          currentSyntacticVersion := edit.editVersion }
    else s
  if edit.editVersion > s1.currentSemanticVersion then
    { s1 with
        semanticRanges := s1.semanticRanges.map (fun rs => fixRanges rs edit.changes),
        inactiveRanges := fixRanges s1.inactiveRanges edit.changes,
        currentSemanticVersion := edit.editVersion }
  else s1

/-- `ColorizationState.applyEdits`: replay every logged edit, in log order,
against both passes. -/
def applyEdits (s : ColorizationState) : ColorizationState :=
  s.versionedEdits.foldl applyEditsStep s

/-- `ColorizationState.purgeOldVersionedEdits`: drop the longest prefix of the
log whose versions are at most `min(lastReceivedSemantic, lastReceivedSyntactic)`
(via `findIndex` of the first newer edit, as in the source). -/
def purgeOldVersionedEdits (s : ColorizationState) : ColorizationState :=
  let minVersion := min s.lastReceivedSemanticVersion s.lastReceivedSyntacticVersion
  match jsFindIndex? (fun e => decide (e.editVersion > minVersion)) s.versionedEdits with
  | none => { s with versionedEdits := [] }
  | some index =>
      if index > 0 then { s with versionedEdits := s.versionedEdits.drop index } else s

/-- The state effect of the task enqueued by
`ColorizationState.updateColorizationRanges`: `applyEdits` followed by
`purgeOldVersionedEdits` (its rendering calls are modelled separately as an
event trace). -/
def updateColorizationRangesState (s : ColorizationState) : ColorizationState :=
  purgeOldVersionedEdits (applyEdits s)

/-- `ColorizationState.updateSyntactic`: overwrite the syntactic pass's ranges
with a fresh classification result, set both syntactic version counters to the
result's version, then run the `updateColorizationRanges` state effect. -/
def updateSyntactic (s : ColorizationState) (syntacticRanges : List (List Range))
    (editVersion : Nat) : ColorizationState :=
  updateColorizationRangesState
    { s with
        syntacticRanges := (List.range tokenKindCount).map (fun i => syntacticRanges.getD i []),
        currentSyntacticVersion := editVersion,
        lastReceivedSyntacticVersion := editVersion }

/-- `ColorizationState.updateSemantic`: overwrite the semantic pass's ranges
and the inactive-region collection with a fresh classification result, set both
semantic version counters to the result's version, then run the
`updateColorizationRanges` state effect. -/
def updateSemantic (s : ColorizationState) (semanticRanges : List (List Range))
    (inactiveRanges : List Range) (editVersion : Nat) : ColorizationState :=
  updateColorizationRangesState
    { s with
        inactiveRanges := inactiveRanges,
        semanticRanges := (List.range tokenKindCount).map (fun i => semanticRanges.getD i []),
        currentSemanticVersion := editVersion,
        lastReceivedSemanticVersion := editVersion }

/-- Abstract alphabet of the side-effecting calls made by the presentation
code: reconciliation calls, handle creation, range re-application to a visible
editor, and disposal of the handles that were active when the operation
started. -/
inductive RenderEvent where
  | applyEditsCall : RenderEvent
  | purgeCall : RenderEvent
  | createHandles : RenderEvent
  | createInactiveHandle : RenderEvent
  | applyRanges : Nat → RenderEvent
  | applyInactive : Nat → RenderEvent
  | disposeOldHandles : RenderEvent
  | disposeOldInactive : RenderEvent
deriving Repr, DecidableEq

/-- Events of `ColorizationState.createColorizationDecorations`: token-kind
decorations are created when enhanced colorization is enabled (with the default
engine), the inactive decoration when dim-inactive-regions is enabled. -/
def createColorizationDecorationsEvents (enhancedColorization dimInactiveRegions : Bool) :
    List RenderEvent :=
  (if enhancedColorization then [RenderEvent.createHandles] else [])
    ++ (if dimInactiveRegions then [RenderEvent.createInactiveHandle] else [])

/-- Events of `ColorizationState.refreshInner` on one visible editor: apply the
merged token ranges, then the inactive ranges, to the current decorations. -/
def refreshInnerEvents (enhancedColorization dimInactiveRegions : Bool) (editor : Nat) :
    List RenderEvent :=
  (if enhancedColorization then [RenderEvent.applyRanges editor] else [])
    ++ (if dimInactiveRegions then [RenderEvent.applyInactive editor] else [])

/-- Events of `ColorizationState.disposeColorizationDecorations`: dispose the
currently active inactive decoration and token decorations (when present). -/
def disposeColorizationDecorationsEvents (hadInactiveDecoration hadDecorations : Bool) :
    List RenderEvent :=
  (if hadInactiveDecoration then [RenderEvent.disposeOldInactive] else [])
    ++ (if hadDecorations then [RenderEvent.disposeOldHandles] else [])

/-- Event trace of the task body of
`ColorizationState.updateColorizationRanges`: reconcile, purge, create the new
decorations, re-apply ranges to every visible editor of the document, and only
then dispose the set-aside old decorations. -/
def updateColorizationRangesEvents (enhancedColorization dimInactiveRegions
    hadInactiveDecoration hadDecorations : Bool) (editors : List Nat) : List RenderEvent :=
  [RenderEvent.applyEditsCall, RenderEvent.purgeCall]
    ++ createColorizationDecorationsEvents enhancedColorization dimInactiveRegions
    ++ (editors.map (refreshInnerEvents enhancedColorization dimInactiveRegions)).flatten
    ++ (if hadInactiveDecoration then [RenderEvent.disposeOldInactive] else [])
    ++ (if hadDecorations then [RenderEvent.disposeOldHandles] else [])

/-- Event trace of the task body of `ColorizationState.onSettingsChanged`:
reconcile, dispose the active decorations, create the new ones, then re-apply
ranges to every visible editor of the document. -/
def onSettingsChangedEvents (enhancedColorization dimInactiveRegions
    hadInactiveDecoration hadDecorations : Bool) (editors : List Nat) : List RenderEvent :=
  [RenderEvent.applyEditsCall]
    ++ disposeColorizationDecorationsEvents hadInactiveDecoration hadDecorations
    ++ createColorizationDecorationsEvents enhancedColorization dimInactiveRegions
    ++ (editors.map (refreshInnerEvents enhancedColorization dimInactiveRegions)).flatten

/-- Is this event the disposal of a previously active render handle? -/
def isDisposeEvent : RenderEvent → Bool
  | RenderEvent.disposeOldHandles => true
  | RenderEvent.disposeOldInactive => true
  | _ => false

/-- Is this event the creation of a render handle or the re-application of
ranges to a visible editor? -/
def isCreateOrApplyEvent : RenderEvent → Bool
  | RenderEvent.createHandles => true
  | RenderEvent.createInactiveHandle => true
  | RenderEvent.applyRanges _ => true
  | RenderEvent.applyInactive _ => true
  | _ => false

/-- Holds of a trace in which no handle creation or range re-application
happens after a disposal of an old handle: every retained old handle is
released only once the new handles exist and all re-application is done. -/
def noReapplyAfterDispose : List RenderEvent → Bool
  | [] => true
  | e :: rest =>
    if isDisposeEvent e then
      rest.all (fun x => !isCreateOrApplyEvent x) && noReapplyAfterDispose rest
    else
      noReapplyAfterDispose rest

/-- Guard of the k-th exit of `fixRange` (k = 0..5), written as a standalone
condition: each includes the negations of the guards tried before it, exactly
as the if/else chain of the source evaluates them.  The six exits are:
edit after range; range fully consumed (absent); trim-and-shift; extend to
insert end; same-line trailing segment; different-line trailing segment. -/
def fixRangeBranchCond (k : Nat) (range : Range)
    (removeInsertStartPosition removeEndPosition : Pos) : Prop :=
  match k with
  | 0 => removeInsertStartPosition.isAfterOrEqual range.stop
  | 1 => ¬removeInsertStartPosition.isAfterOrEqual range.stop ∧
      removeInsertStartPosition.isBeforeOrEqual range.start ∧
      removeEndPosition.isAfterOrEqual range.stop
  | 2 => ¬removeInsertStartPosition.isAfterOrEqual range.stop ∧
      removeInsertStartPosition.isBeforeOrEqual range.start ∧
      ¬removeEndPosition.isAfterOrEqual range.stop
  | 3 => ¬removeInsertStartPosition.isAfterOrEqual range.stop ∧
      ¬removeInsertStartPosition.isBeforeOrEqual range.start ∧
      removeEndPosition.isAfterOrEqual range.stop
  | 4 => ¬removeInsertStartPosition.isAfterOrEqual range.stop ∧
      ¬removeInsertStartPosition.isBeforeOrEqual range.start ∧
      ¬removeEndPosition.isAfterOrEqual range.stop ∧
      removeEndPosition.line = range.stop.line
  | 5 => ¬removeInsertStartPosition.isAfterOrEqual range.stop ∧
      ¬removeInsertStartPosition.isBeforeOrEqual range.start ∧
      ¬removeEndPosition.isAfterOrEqual range.stop ∧
      ¬removeEndPosition.line = range.stop.line
  | _ => False

/-- Claim C9: transforming a well-formed range through the zero-length edit at
any position `p` (removedStart = removedEnd = insertedEnd = p) returns the
range unchanged. -/
theorem fixRange_identity (r : Range) (p : Pos) (hwf : wfRange r) :
    fixRange r p p p = some r := by
  obtain ⟨⟨sl, sc⟩, ⟨el, ec⟩⟩ := r
  obtain ⟨pl, pc⟩ := p
  simp only [fixRange, shiftRangeAfterRemove, shiftRangeAfterInsert, Pos.translate,
    Pos.isAfterOrEqual, Pos.isBeforeOrEqual, wfRange, wfPos] at hwf ⊢
  split_ifs <;> (try rfl) <;>
    simp only [Option.some.injEq, Range.mk.injEq, Pos.mk.injEq, true_and, and_true] <;> omega

/-- Witness for `fixRange_identity` at a concrete range and position. -/
theorem fixRange_identity_witness :
    wfRange ⟨⟨1, 2⟩, ⟨3, 4⟩⟩ ∧
      fixRange ⟨⟨1, 2⟩, ⟨3, 4⟩⟩ ⟨2, 2⟩ ⟨2, 2⟩ ⟨2, 2⟩ = some ⟨⟨1, 2⟩, ⟨3, 4⟩⟩ :=
  ⟨by decide, fixRange_identity ⟨⟨1, 2⟩, ⟨3, 4⟩⟩ ⟨2, 2⟩ (by decide)⟩

/-- Claim C10: when the removal of a well-formed change starts strictly inside
a well-formed range, the transformed range is present and its start position is
exactly the original start. -/
theorem fixRange_midRange_start_preserved (r : Range) (rs re ie : Pos)
    (hwf : wfRange r) (hin1 : r.start.isBefore rs) (hin2 : rs.isBefore r.stop)
    (hc1 : rs.isBeforeOrEqual re) (hc2 : rs.isBeforeOrEqual ie) :
    ∃ r2, fixRange r rs re ie = some r2 ∧ r2.start = r.start := by
  obtain ⟨⟨sl, sc⟩, ⟨el, ec⟩⟩ := r
  obtain ⟨rsl, rsc⟩ := rs
  obtain ⟨rel, rec⟩ := re
  obtain ⟨iel, iec⟩ := ie
  simp only [fixRange, Pos.isAfterOrEqual, Pos.isBeforeOrEqual, Pos.isBefore,
    wfRange, wfPos] at hwf hin1 hin2 hc1 hc2 ⊢
  split_ifs <;> first
    | exact ⟨_, rfl, rfl⟩
    | (exfalso; omega)

/-- Witness for `fixRange_midRange_start_preserved` at a concrete range and
change. -/
theorem fixRange_midRange_start_preserved_witness :
    wfRange ⟨⟨1, 1⟩, ⟨1, 10⟩⟩ ∧ Pos.isBefore ⟨1, 1⟩ ⟨1, 4⟩ ∧ Pos.isBefore ⟨1, 4⟩ ⟨1, 10⟩ ∧
      ∃ r2, fixRange ⟨⟨1, 1⟩, ⟨1, 10⟩⟩ ⟨1, 4⟩ ⟨1, 6⟩ ⟨1, 5⟩ = some r2 ∧ r2.start = ⟨1, 1⟩ :=
  ⟨by decide, by decide, by decide,
    fixRange_midRange_start_preserved ⟨⟨1, 1⟩, ⟨1, 10⟩⟩ ⟨1, 4⟩ ⟨1, 6⟩ ⟨1, 5⟩
      (by decide) (by decide) (by decide) (by decide) (by decide)⟩

/-- Claim C8 (counterexample): for the empty range at (0,0) and a change
removing (0,0)–(0,5), the claimed conditions removedStart ≤ r.start and
removedEnd ≥ r.end hold, yet `fixRange` returns the range unchanged instead of
absent, because the edit-starts-at-or-after-range-end branch fires first. -/
theorem fixRange_full_consumption_counterexample :
    Pos.isBeforeOrEqual ⟨0, 0⟩ (⟨⟨0, 0⟩, ⟨0, 0⟩⟩ : Range).start ∧
      Pos.isAfterOrEqual ⟨0, 5⟩ (⟨⟨0, 0⟩, ⟨0, 0⟩⟩ : Range).stop ∧
      fixRange ⟨⟨0, 0⟩, ⟨0, 0⟩⟩ ⟨0, 0⟩ ⟨0, 5⟩ ⟨0, 0⟩ ≠ none := by
  decide

/-- Claim C8 (amended): a change whose removal starts at or before the range
start, ends at or after the range end, and starts strictly before the range
end, deletes the range: `fixRange` returns `none`. -/
theorem fixRange_full_consumption (r : Range) (rs re ie : Pos)
    (hc1 : rs.isBeforeOrEqual r.start) (hc2 : re.isAfterOrEqual r.stop)
    (hc3 : rs.isBefore r.stop) :
    fixRange r rs re ie = none := by
  obtain ⟨⟨sl, sc⟩, ⟨el, ec⟩⟩ := r
  obtain ⟨rsl, rsc⟩ := rs
  obtain ⟨rel, rec⟩ := re
  obtain ⟨iel, iec⟩ := ie
  simp only [fixRange, Pos.isAfterOrEqual, Pos.isBeforeOrEqual, Pos.isBefore] at hc1 hc2 hc3 ⊢
  split_ifs <;> first
    | rfl
    | (exfalso; omega)

/-- Witness for `fixRange_full_consumption` at a concrete range and change. -/
theorem fixRange_full_consumption_witness :
    Pos.isBeforeOrEqual ⟨2, 0⟩ (⟨⟨2, 3⟩, ⟨2, 8⟩⟩ : Range).start ∧
      Pos.isAfterOrEqual ⟨3, 1⟩ (⟨⟨2, 3⟩, ⟨2, 8⟩⟩ : Range).stop ∧
      Pos.isBefore ⟨2, 0⟩ (⟨⟨2, 3⟩, ⟨2, 8⟩⟩ : Range).stop ∧
      fixRange ⟨⟨2, 3⟩, ⟨2, 8⟩⟩ ⟨2, 0⟩ ⟨3, 1⟩ ⟨2, 1⟩ = none :=
  ⟨by decide, by decide, by decide,
    fixRange_full_consumption ⟨⟨2, 3⟩, ⟨2, 8⟩⟩ ⟨2, 0⟩ ⟨3, 1⟩ ⟨2, 1⟩
      (by decide) (by decide) (by decide)⟩

set_option maxHeartbeats 2000000 in
/-- Claim C4: for a well-formed range and a well-formed replacement, exactly
one of the six guards of `fixRange` holds, and whenever `fixRange` returns a
range, that range is well-formed (start ≤ end, non-negative coordinates). -/
theorem fixRange_six_branches_and_wf (r : Range) (rs re ie : Pos)
    (hwf : wfRange r) (h1 : wfPos rs) (h2 : wfPos re) (h3 : wfPos ie)
    (hc1 : rs.isBeforeOrEqual re) (hc2 : rs.isBeforeOrEqual ie) :
    (∃! k, fixRangeBranchCond k r rs re) ∧
      ∀ r2, fixRange r rs re ie = some r2 → wfRange r2 := by
  constructor
  · by_cases hA : rs.isAfterOrEqual r.stop
    · refine ⟨0, hA, fun y hy => ?_⟩
      rcases y with _ | _ | _ | _ | _ | _ | y <;> simp only [fixRangeBranchCond] at hy <;> tauto
    · by_cases hB : rs.isBeforeOrEqual r.start
      · by_cases hC : re.isAfterOrEqual r.stop
        · refine ⟨1, ⟨hA, hB, hC⟩, fun y hy => ?_⟩
          rcases y with _ | _ | _ | _ | _ | _ | y <;>
            simp only [fixRangeBranchCond] at hy <;> tauto
        · refine ⟨2, ⟨hA, hB, hC⟩, fun y hy => ?_⟩
          rcases y with _ | _ | _ | _ | _ | _ | y <;>
            simp only [fixRangeBranchCond] at hy <;> tauto
      · by_cases hC : re.isAfterOrEqual r.stop
        · refine ⟨3, ⟨hA, hB, hC⟩, fun y hy => ?_⟩
          rcases y with _ | _ | _ | _ | _ | _ | y <;>
            simp only [fixRangeBranchCond] at hy <;> tauto
        · by_cases hD : re.line = r.stop.line
          · refine ⟨4, ⟨hA, hB, hC, hD⟩, fun y hy => ?_⟩
            rcases y with _ | _ | _ | _ | _ | _ | y <;>
              simp only [fixRangeBranchCond] at hy <;> tauto
          · refine ⟨5, ⟨hA, hB, hC, hD⟩, fun y hy => ?_⟩
            rcases y with _ | _ | _ | _ | _ | _ | y <;>
              simp only [fixRangeBranchCond] at hy <;> tauto
  · intro r2 hr2
    obtain ⟨⟨s2l, s2c⟩, ⟨e2l, e2c⟩⟩ := r2
    obtain ⟨⟨sl, sc⟩, ⟨el, ec⟩⟩ := r
    obtain ⟨rsl, rsc⟩ := rs
    obtain ⟨rel, rec⟩ := re
    obtain ⟨iel, iec⟩ := ie
    simp only [fixRange, shiftRangeAfterRemove, shiftRangeAfterInsert, Pos.translate,
      apply_ite Range.start, apply_ite Range.stop, apply_ite Pos.line, apply_ite Pos.character,
      Pos.isAfterOrEqual, Pos.isBeforeOrEqual, wfRange, wfPos]
        at hwf h1 h2 h3 hc1 hc2 hr2 ⊢
    split_ifs at hr2 <;>
      (try simp only [Option.some.injEq, Range.mk.injEq, Pos.mk.injEq, true_and, and_true]
        at hr2) <;>
      omega

/-- Witness for `fixRange_six_branches_and_wf` at a concrete range and
replacement. -/
theorem fixRange_six_branches_and_wf_witness :
    wfRange ⟨⟨0, 0⟩, ⟨2, 5⟩⟩ ∧ wfPos ⟨1, 1⟩ ∧ wfPos ⟨1, 3⟩ ∧ wfPos ⟨2, 2⟩ ∧
      Pos.isBeforeOrEqual ⟨1, 1⟩ ⟨1, 3⟩ ∧ Pos.isBeforeOrEqual ⟨1, 1⟩ ⟨2, 2⟩ ∧
      ((∃! k, fixRangeBranchCond k ⟨⟨0, 0⟩, ⟨2, 5⟩⟩ ⟨1, 1⟩ ⟨1, 3⟩) ∧
        ∀ r2, fixRange ⟨⟨0, 0⟩, ⟨2, 5⟩⟩ ⟨1, 1⟩ ⟨1, 3⟩ ⟨2, 2⟩ = some r2 → wfRange r2) :=
  ⟨by decide, by decide, by decide, by decide, by decide, by decide,
    fixRange_six_branches_and_wf ⟨⟨0, 0⟩, ⟨2, 5⟩⟩ ⟨1, 1⟩ ⟨1, 3⟩ ⟨2, 2⟩
      (by decide) (by decide) (by decide) (by decide) (by decide) (by decide)⟩

/-- Claim C3 (counterexample): for the well-formed range (0,5)–(0,10) and the
well-formed change that removes (0,3)–(0,7) and inserts nothing, the transform
is present, but transforming the result through the exact inverse change
(remove the empty inserted region at (0,3), re-insert text ending at (0,7))
yields (0,7)–(0,10), not the original range: the overlap was trimmed away and
cannot be restored. -/
theorem fixRange_roundTrip_counterexample :
    fixRange ⟨⟨0, 5⟩, ⟨0, 10⟩⟩ ⟨0, 3⟩ ⟨0, 7⟩ ⟨0, 3⟩ = some ⟨⟨0, 3⟩, ⟨0, 6⟩⟩ ∧
      fixRange ⟨⟨0, 3⟩, ⟨0, 6⟩⟩ ⟨0, 3⟩ ⟨0, 3⟩ ⟨0, 7⟩ ≠ some ⟨⟨0, 5⟩, ⟨0, 10⟩⟩ := by
  decide

set_option maxHeartbeats 4000000 in
/-- Claim C3 (amended): transforming a well-formed range through a well-formed
change and then through the exact inverse change restores the original range,
provided the change begins at or after the range end, or the change is
single-line and its removal ends at or before the range start. -/
theorem fixRange_roundTrip (r r2 : Range) (rs re ie : Pos)
    (hwf : wfRange r) (h1 : wfPos rs) (h2 : wfPos re) (h3 : wfPos ie)
    (hc1 : rs.isBeforeOrEqual re) (hc2 : rs.isBeforeOrEqual ie)
    (hside : r.stop.isBeforeOrEqual rs ∨
      (rs.line = re.line ∧ re.line = ie.line ∧ re.isBeforeOrEqual r.start))
    (h : fixRange r rs re ie = some r2) :
    fixRange r2 rs ie re = some r := by
  rcases hside with hA | ⟨hL1, hL2, hB⟩
  · have hA' : rs.isAfterOrEqual r.stop := hA
    unfold fixRange at h
    rw [if_pos hA'] at h
    obtain rfl : r = r2 := Option.some.inj h
    unfold fixRange
    rw [if_pos hA']
  · obtain ⟨⟨sl, sc⟩, ⟨el, ec⟩⟩ := r
    obtain ⟨⟨s2l, s2c⟩, ⟨e2l, e2c⟩⟩ := r2
    obtain ⟨rsl, rsc⟩ := rs
    obtain ⟨rel, rec⟩ := re
    obtain ⟨iel, iec⟩ := ie
    simp only at hL1 hL2
    subst hL1 hL2
    simp only [fixRange, shiftRangeAfterRemove, shiftRangeAfterInsert, Pos.translate,
      apply_ite Range.start, apply_ite Range.stop, apply_ite Pos.line, apply_ite Pos.character,
      Pos.isAfterOrEqual, Pos.isBeforeOrEqual, wfRange, wfPos, sub_self, add_zero,
      eq_self_iff_true, if_true]
        at hwf h1 h2 h3 hc1 hc2 hB h ⊢
    split_ifs at h <;> (try (exfalso; omega)) <;>
      (try simp only [Option.some.injEq, Range.mk.injEq, Pos.mk.injEq, true_and, and_true]
        at h) <;>
      split_ifs <;>
      (try simp only [Option.some.injEq, Range.mk.injEq, Pos.mk.injEq, true_and, and_true]) <;>
      omega

/-- Witness for `fixRange_roundTrip` at a concrete single-line change before a
concrete range. -/
theorem fixRange_roundTrip_witness :
    wfRange ⟨⟨0, 5⟩, ⟨0, 9⟩⟩ ∧ wfPos ⟨0, 1⟩ ∧ wfPos ⟨0, 3⟩ ∧ wfPos ⟨0, 2⟩ ∧
      Pos.isBeforeOrEqual ⟨0, 1⟩ ⟨0, 3⟩ ∧ Pos.isBeforeOrEqual ⟨0, 1⟩ ⟨0, 2⟩ ∧
      fixRange ⟨⟨0, 5⟩, ⟨0, 9⟩⟩ ⟨0, 1⟩ ⟨0, 3⟩ ⟨0, 2⟩ = some ⟨⟨0, 4⟩, ⟨0, 8⟩⟩ ∧
      fixRange ⟨⟨0, 4⟩, ⟨0, 8⟩⟩ ⟨0, 1⟩ ⟨0, 2⟩ ⟨0, 3⟩ = some ⟨⟨0, 5⟩, ⟨0, 9⟩⟩ :=
  ⟨by decide, by decide, by decide, by decide, by decide, by decide, by decide,
    fixRange_roundTrip ⟨⟨0, 5⟩, ⟨0, 9⟩⟩ ⟨⟨0, 4⟩, ⟨0, 8⟩⟩ ⟨0, 1⟩ ⟨0, 3⟩ ⟨0, 2⟩
      (by decide) (by decide) (by decide) (by decide) (by decide) (by decide)
      (Or.inr (by decide)) (by decide)⟩

/-- One reconciliation step never touches the edit log. -/
theorem applyEditsStep_versionedEdits (s : ColorizationState) (e : VersionedEdits) :
    (applyEditsStep s e).versionedEdits = s.versionedEdits := by
  simp only [applyEditsStep, apply_ite ColorizationState.currentSemanticVersion,
    apply_ite ColorizationState.versionedEdits]
  split_ifs <;> rfl

/-- One reconciliation step never touches the last-received syntactic version. -/
theorem applyEditsStep_lastSyn (s : ColorizationState) (e : VersionedEdits) :
    (applyEditsStep s e).lastReceivedSyntacticVersion = s.lastReceivedSyntacticVersion := by
  simp only [applyEditsStep, apply_ite ColorizationState.currentSemanticVersion,
    apply_ite ColorizationState.lastReceivedSyntacticVersion]
  split_ifs <;> rfl

/-- One reconciliation step never touches the last-received semantic version. -/
theorem applyEditsStep_lastSem (s : ColorizationState) (e : VersionedEdits) :
    (applyEditsStep s e).lastReceivedSemanticVersion = s.lastReceivedSemanticVersion := by
  simp only [applyEditsStep, apply_ite ColorizationState.currentSemanticVersion,
    apply_ite ColorizationState.lastReceivedSemanticVersion]
  split_ifs <;> rfl

/-- Effect of one reconciliation step on the syntactic applied version. -/
theorem applyEditsStep_curSyn (s : ColorizationState) (e : VersionedEdits) :
    (applyEditsStep s e).currentSyntacticVersion =
      if s.currentSyntacticVersion < e.editVersion then e.editVersion
      else s.currentSyntacticVersion := by
  simp only [applyEditsStep, gt_iff_lt, apply_ite ColorizationState.currentSemanticVersion,
    apply_ite ColorizationState.currentSyntacticVersion]
  split_ifs <;> rfl

/-- Effect of one reconciliation step on the semantic applied version. -/
theorem applyEditsStep_curSem (s : ColorizationState) (e : VersionedEdits) :
    (applyEditsStep s e).currentSemanticVersion =
      if s.currentSemanticVersion < e.editVersion then e.editVersion
      else s.currentSemanticVersion := by
  simp only [applyEditsStep, gt_iff_lt, apply_ite ColorizationState.currentSemanticVersion]
  split_ifs <;> rfl

/-- The reconciliation loop never touches the edit log. -/
theorem applyEditsLoop_versionedEdits (l : List VersionedEdits) (s : ColorizationState) :
    (l.foldl applyEditsStep s).versionedEdits = s.versionedEdits := by
  induction l generalizing s with
  | nil => rfl
  | cons x xs ih => simp only [List.foldl_cons, ih, applyEditsStep_versionedEdits]

/-- The reconciliation loop never touches the last-received syntactic version. -/
theorem applyEditsLoop_lastSyn (l : List VersionedEdits) (s : ColorizationState) :
    (l.foldl applyEditsStep s).lastReceivedSyntacticVersion = s.lastReceivedSyntacticVersion := by
  induction l generalizing s with
  | nil => rfl
  | cons x xs ih => simp only [List.foldl_cons, ih, applyEditsStep_lastSyn]

/-- The reconciliation loop never touches the last-received semantic version. -/
theorem applyEditsLoop_lastSem (l : List VersionedEdits) (s : ColorizationState) :
    (l.foldl applyEditsStep s).lastReceivedSemanticVersion = s.lastReceivedSemanticVersion := by
  induction l generalizing s with
  | nil => rfl
  | cons x xs ih => simp only [List.foldl_cons, ih, applyEditsStep_lastSem]

/-- The reconciliation loop never lowers the syntactic applied version. -/
theorem applyEditsLoop_curSyn_mono (l : List VersionedEdits) (s : ColorizationState) :
    s.currentSyntacticVersion ≤ (l.foldl applyEditsStep s).currentSyntacticVersion := by
  induction l generalizing s with
  | nil => exact le_refl _
  | cons x xs ih =>
    simp only [List.foldl_cons]
    refine le_trans ?_ (ih (applyEditsStep s x))
    rw [applyEditsStep_curSyn]
    split_ifs <;> omega

/-- The reconciliation loop never lowers the semantic applied version. -/
theorem applyEditsLoop_curSem_mono (l : List VersionedEdits) (s : ColorizationState) :
    s.currentSemanticVersion ≤ (l.foldl applyEditsStep s).currentSemanticVersion := by
  induction l generalizing s with
  | nil => exact le_refl _
  | cons x xs ih =>
    simp only [List.foldl_cons]
    refine le_trans ?_ (ih (applyEditsStep s x))
    rw [applyEditsStep_curSem]
    split_ifs <;> omega

/-- After the reconciliation loop, the syntactic applied version is at least
the version of every edit the loop consumed. -/
theorem applyEditsLoop_curSyn_ge (l : List VersionedEdits) (s : ColorizationState) :
    ∀ e ∈ l, e.editVersion ≤ (l.foldl applyEditsStep s).currentSyntacticVersion := by
  induction l generalizing s with
  | nil => intro e he; exact absurd he (List.not_mem_nil e)
  | cons x xs ih =>
    intro e he
    simp only [List.foldl_cons]
    rcases List.mem_cons.mp he with rfl | hmem
    · refine le_trans ?_ (applyEditsLoop_curSyn_mono xs (applyEditsStep s e))
      rw [applyEditsStep_curSyn]
      split_ifs <;> omega
    · exact ih (applyEditsStep s x) e hmem

/-- After the reconciliation loop, the semantic applied version is at least the
version of every edit the loop consumed. -/
theorem applyEditsLoop_curSem_ge (l : List VersionedEdits) (s : ColorizationState) :
    ∀ e ∈ l, e.editVersion ≤ (l.foldl applyEditsStep s).currentSemanticVersion := by
  induction l generalizing s with
  | nil => intro e he; exact absurd he (List.not_mem_nil e)
  | cons x xs ih =>
    intro e he
    simp only [List.foldl_cons]
    rcases List.mem_cons.mp he with rfl | hmem
    · refine le_trans ?_ (applyEditsLoop_curSem_mono xs (applyEditsStep s e))
      rw [applyEditsStep_curSem]
      split_ifs <;> omega
    · exact ih (applyEditsStep s x) e hmem

/-- The syntactic applied version after the loop is the old one or the version
of some logged edit. -/
theorem applyEditsLoop_curSyn_eq_or_mem (l : List VersionedEdits) (s : ColorizationState) :
    (l.foldl applyEditsStep s).currentSyntacticVersion = s.currentSyntacticVersion ∨
      ∃ e ∈ l, (l.foldl applyEditsStep s).currentSyntacticVersion = e.editVersion := by
  induction l generalizing s with
  | nil => exact Or.inl rfl
  | cons x xs ih =>
    simp only [List.foldl_cons]
    rcases ih (applyEditsStep s x) with h | ⟨e, he, h⟩
    · rw [h, applyEditsStep_curSyn]
      split_ifs
      · exact Or.inr ⟨x, List.mem_cons_self x xs, rfl⟩
      · exact Or.inl rfl
    · exact Or.inr ⟨e, List.mem_cons_of_mem x he, h⟩

/-- The semantic applied version after the loop is the old one or the version
of some logged edit. -/
theorem applyEditsLoop_curSem_eq_or_mem (l : List VersionedEdits) (s : ColorizationState) :
    (l.foldl applyEditsStep s).currentSemanticVersion = s.currentSemanticVersion ∨
      ∃ e ∈ l, (l.foldl applyEditsStep s).currentSemanticVersion = e.editVersion := by
  induction l generalizing s with
  | nil => exact Or.inl rfl
  | cons x xs ih =>
    simp only [List.foldl_cons]
    rcases ih (applyEditsStep s x) with h | ⟨e, he, h⟩
    · rw [h, applyEditsStep_curSem]
      split_ifs
      · exact Or.inr ⟨x, List.mem_cons_self x xs, rfl⟩
      · exact Or.inl rfl
    · exact Or.inr ⟨e, List.mem_cons_of_mem x he, h⟩

/-- A reconciliation step for an edit both passes have consumed is a no-op. -/
theorem applyEditsStep_id (s : ColorizationState) (e : VersionedEdits)
    (h1 : e.editVersion ≤ s.currentSyntacticVersion)
    (h2 : e.editVersion ≤ s.currentSemanticVersion) : applyEditsStep s e = s := by
  have n1 : ¬(e.editVersion > s.currentSyntacticVersion) := by omega
  have n2 : ¬(e.editVersion > s.currentSemanticVersion) := by omega
  simp only [applyEditsStep, if_neg n1, if_neg n2]

/-- The reconciliation loop over a log both passes have fully consumed is a
no-op. -/
theorem applyEditsLoop_id (l : List VersionedEdits) (s : ColorizationState)
    (h : ∀ e ∈ l, e.editVersion ≤ s.currentSyntacticVersion ∧
      e.editVersion ≤ s.currentSemanticVersion) : l.foldl applyEditsStep s = s := by
  induction l with
  | nil => rfl
  | cons x xs ih =>
    have hx := h x (List.mem_cons_self x xs)
    simp only [List.foldl_cons, applyEditsStep_id s x hx.1 hx.2]
    exact ih (fun e he => h e (List.mem_cons_of_mem x he))

/-- Claim C7: running `applyEdits` twice with no new edit recorded in between
leaves the state exactly as after the first run: all stored ranges, the
inactive ranges and both applied-version counters are unchanged by the second
run. -/
theorem applyEdits_idempotent (s : ColorizationState) :
    applyEdits (applyEdits s) = applyEdits s := by
  unfold applyEdits
  rw [applyEditsLoop_versionedEdits]
  exact applyEditsLoop_id _ _
    (fun e he => ⟨applyEditsLoop_curSyn_ge _ _ e he, applyEditsLoop_curSem_ge _ _ e he⟩)

/-- Purging only touches the edit log: every other field is preserved. -/
theorem purgeOldVersionedEdits_preserves (s : ColorizationState) :
    (purgeOldVersionedEdits s).currentSyntacticVersion = s.currentSyntacticVersion ∧
    (purgeOldVersionedEdits s).lastReceivedSyntacticVersion = s.lastReceivedSyntacticVersion ∧
    (purgeOldVersionedEdits s).currentSemanticVersion = s.currentSemanticVersion ∧
    (purgeOldVersionedEdits s).lastReceivedSemanticVersion = s.lastReceivedSemanticVersion := by
  simp only [purgeOldVersionedEdits]
  cases jsFindIndex?
      (fun e => decide (e.editVersion >
        min s.lastReceivedSemanticVersion s.lastReceivedSyntacticVersion))
      s.versionedEdits with
  | none => exact ⟨rfl, rfl, rfl, rfl⟩
  | some index =>
    dsimp only
    split_ifs <;> exact ⟨rfl, rfl, rfl, rfl⟩

/-- Claim C1 (amended): after `updateSyntactic` (resp. `updateSemantic`) with a
result carrying version v, the pass's last-received version counter equals v
unconditionally: the counter is overwritten, not combined with `max`. -/
theorem update_lastReceived_eq_incoming :
    (∀ s sr v, (updateSyntactic s sr v).lastReceivedSyntacticVersion = v) ∧
      (∀ s sr ir v, (updateSemantic s sr ir v).lastReceivedSemanticVersion = v) := by
  constructor
  · intro s sr v
    unfold updateSyntactic updateColorizationRangesState applyEdits
    rw [(purgeOldVersionedEdits_preserves _).2.1, applyEditsLoop_lastSyn]
  · intro s sr ir v
    unfold updateSemantic updateColorizationRangesState applyEdits
    rw [(purgeOldVersionedEdits_preserves _).2.2.2, applyEditsLoop_lastSem]

/-- Claim C1 (counterexample): a state whose syntactic pass last received
version 5 processes a stale syntactic result with version 3; afterwards the
last-received counter is 3, not max(5, 3) = 5 as the claim states. -/
theorem update_lastReceived_not_max_counterexample :
    ¬((updateSyntactic ⟨[], [], [], [], 0, 5, 0, 0⟩ [] 3).lastReceivedSyntacticVersion =
        max (ColorizationState.lastReceivedSyntacticVersion ⟨[], [], [], [], 0, 5, 0, 0⟩) 3) := by
  decide

/-- Claim C5 (amended): the applied-version counters are untouched by
`addEdits` and never lowered by `applyEdits`, and `applyEdits` moves them only
to versions present in the edit log, consumed in log order. -/
theorem appliedVersion_monotone_addEdits_applyEdits :
    (∀ s c v, (addEdits s c v).currentSyntacticVersion = s.currentSyntacticVersion ∧
      (addEdits s c v).currentSemanticVersion = s.currentSemanticVersion) ∧
    (∀ s : ColorizationState,
      s.currentSyntacticVersion ≤ (applyEdits s).currentSyntacticVersion ∧
      s.currentSemanticVersion ≤ (applyEdits s).currentSemanticVersion ∧
      ((applyEdits s).currentSyntacticVersion = s.currentSyntacticVersion ∨
        ∃ e ∈ s.versionedEdits, (applyEdits s).currentSyntacticVersion = e.editVersion) ∧
      ((applyEdits s).currentSemanticVersion = s.currentSemanticVersion ∨
        ∃ e ∈ s.versionedEdits, (applyEdits s).currentSemanticVersion = e.editVersion)) :=
  ⟨fun _ _ _ => ⟨rfl, rfl⟩,
    fun s => ⟨applyEditsLoop_curSyn_mono s.versionedEdits s,
      applyEditsLoop_curSem_mono s.versionedEdits s,
      applyEditsLoop_curSyn_eq_or_mem s.versionedEdits s,
      applyEditsLoop_curSem_eq_or_mem s.versionedEdits s⟩⟩

/-- Claim C5 (counterexample): a stale syntactic result (version 3 arriving
when the applied version is 5 and the log is empty) lowers the syntactic
applied-version counter, refuting "never decreases" for sequences that include
`updateSyntactic`. -/
theorem updateSyntactic_decreases_appliedVersion_counterexample :
    ¬(ColorizationState.currentSyntacticVersion ⟨[], [], [], [], 5, 5, 5, 5⟩ ≤
        (updateSyntactic ⟨[], [], [], [], 5, 5, 5, 5⟩ [] 3).currentSyntacticVersion) := by
  decide

/-- `jsFindIndex?` returns no index exactly when no element satisfies the
predicate. -/
theorem jsFindIndex?_eq_none_iff {α : Type} (p : α → Bool) (l : List α) :
    jsFindIndex? p l = none ↔ ∀ x ∈ l, p x = false := by
  induction l with
  | nil => simp [jsFindIndex?]
  | cons x xs ih =>
    cases hpx : p x with
    | true => simp [jsFindIndex?, hpx]
    | false => simp [jsFindIndex?, hpx, ih, Option.map_eq_none']

/-- On a log with strictly increasing versions, dropping everything before the
first entry newer than `m` (clearing the log when there is none) is the same as
filtering the log down to the entries newer than `m`. -/
theorem jsFindIndex?_drop_eq_filter (m : Nat) :
    ∀ l : List VersionedEdits, l.Pairwise (fun a b => a.editVersion < b.editVersion) →
      (match jsFindIndex? (fun e => decide (e.editVersion > m)) l with
        | none => ([] : List VersionedEdits)
        | some i => l.drop i) = l.filter (fun e => decide (e.editVersion > m)) := by
  intro l
  induction l with
  | nil => intro _; rfl
  | cons x xs ih =>
    intro hs
    rw [List.pairwise_cons] at hs
    obtain ⟨hrel, htail⟩ := hs
    by_cases hx : x.editVersion > m
    · have hpx : decide (x.editVersion > m) = true := decide_eq_true hx
      have hfilter : xs.filter (fun e => decide (e.editVersion > m)) = xs :=
        List.filter_eq_self.mpr (fun y hy => decide_eq_true (lt_trans hx (hrel y hy)))
      simp [jsFindIndex?, hpx, List.filter_cons, hfilter]
    · have hpx : decide (x.editVersion > m) = false := by simp [hx]
      cases hfi : jsFindIndex? (fun e => decide (e.editVersion > m)) xs with
      | none =>
        have hfe : xs.filter (fun e => decide (e.editVersion > m)) = [] := by
          rw [List.filter_eq_nil_iff]
          intro a ha
          simp [(jsFindIndex?_eq_none_iff _ _).mp hfi a ha]
        simp [jsFindIndex?, hpx, hfi, List.filter_cons, hfe]
      | some i =>
        have ihx : xs.drop i = xs.filter (fun e => decide (e.editVersion > m)) := by
          have h0 := ih htail
          rw [hfi] at h0
          exact h0
        simp [jsFindIndex?, hpx, hfi, List.filter_cons, ihx]

/-- Claim C6: assuming the log was recorded with strictly increasing versions,
purging leaves exactly the entries whose version exceeds
min(lastReceivedSemantic, lastReceivedSyntactic), unchanged and in order (the
log becomes its own filter), and every remaining entry is newer than that
minimum. -/
theorem purgeOldVersionedEdits_keeps_exactly_newer (s : ColorizationState)
    (hs : s.versionedEdits.Pairwise (fun a b => a.editVersion < b.editVersion)) :
    (purgeOldVersionedEdits s).versionedEdits =
      s.versionedEdits.filter (fun e => decide (e.editVersion >
        min s.lastReceivedSemanticVersion s.lastReceivedSyntacticVersion)) ∧
    ∀ e ∈ (purgeOldVersionedEdits s).versionedEdits,
      min s.lastReceivedSemanticVersion s.lastReceivedSyntacticVersion < e.editVersion := by
  have key := jsFindIndex?_drop_eq_filter
    (min s.lastReceivedSemanticVersion s.lastReceivedSyntacticVersion) s.versionedEdits hs
  have hfield : (purgeOldVersionedEdits s).versionedEdits =
      s.versionedEdits.filter (fun e => decide (e.editVersion >
        min s.lastReceivedSemanticVersion s.lastReceivedSyntacticVersion)) := by
    rw [← key]
    simp only [purgeOldVersionedEdits]
    cases jsFindIndex?
        (fun e => decide (e.editVersion >
          min s.lastReceivedSemanticVersion s.lastReceivedSyntacticVersion))
        s.versionedEdits with
    | none => rfl
    | some i =>
      dsimp only
      split_ifs with hi
      · rfl
      · have h0 : i = 0 := by omega
        subst h0
        rfl
  refine ⟨hfield, fun e he => ?_⟩
  rw [hfield] at he
  simpa using (List.mem_filter.mp he).2

/-- Witness for `purgeOldVersionedEdits_keeps_exactly_newer` at a concrete
state: the log holds versions 1 and 3, the passes last received versions 1 and
2, so purge drops the version-1 entry and keeps the version-3 entry. -/
theorem purgeOldVersionedEdits_keeps_exactly_newer_witness :
    List.Pairwise (fun a b => a.editVersion < b.editVersion)
        (ColorizationState.versionedEdits ⟨[], [], [], [⟨1, []⟩, ⟨3, []⟩], 0, 1, 0, 2⟩) ∧
      ((purgeOldVersionedEdits ⟨[], [], [], [⟨1, []⟩, ⟨3, []⟩], 0, 1, 0, 2⟩).versionedEdits =
        (ColorizationState.versionedEdits
            ⟨[], [], [], [⟨1, []⟩, ⟨3, []⟩], 0, 1, 0, 2⟩).filter
          (fun e => decide (e.editVersion > min 2 1)) ∧
      ∀ e ∈ (purgeOldVersionedEdits ⟨[], [], [], [⟨1, []⟩, ⟨3, []⟩], 0, 1, 0, 2⟩).versionedEdits,
        min 2 1 < e.editVersion) :=
  ⟨by decide, by exact purgeOldVersionedEdits_keeps_exactly_newer _ (by decide)⟩

/-- A trace consisting only of events that are neither handle creations nor
range re-applications satisfies the dispose-last discipline. -/
theorem noReapplyAfterDispose_of_no_create (b : List RenderEvent)
    (hb : ∀ x ∈ b, isCreateOrApplyEvent x = false) : noReapplyAfterDispose b = true := by
  induction b with
  | nil => rfl
  | cons e rest ih =>
    have hrest : ∀ x ∈ rest, isCreateOrApplyEvent x = false :=
      fun x hx => hb x (List.mem_cons_of_mem e hx)
    cases hd : isDisposeEvent e with
    | true =>
      simp only [noReapplyAfterDispose, hd, if_true, Bool.and_eq_true]
      exact ⟨List.all_eq_true.mpr (fun x hx => by simp [hrest x hx]), ih hrest⟩
    | false =>
      simp only [noReapplyAfterDispose, hd, Bool.false_eq_true, if_false]
      exact ih hrest

/-- If a trace first performs no disposal and afterwards no creation or
re-application, every disposal in it happens after all re-application. -/
theorem noReapplyAfterDispose_append (a b : List RenderEvent)
    (ha : ∀ x ∈ a, isDisposeEvent x = false)
    (hb : ∀ x ∈ b, isCreateOrApplyEvent x = false) :
    noReapplyAfterDispose (a ++ b) = true := by
  induction a with
  | nil => exact noReapplyAfterDispose_of_no_create b hb
  | cons x a ih =>
    have hx : isDisposeEvent x = false := ha x (List.mem_cons_self x a)
    simp only [List.cons_append, noReapplyAfterDispose, hx, Bool.false_eq_true, if_false]
    exact ih (fun y hy => ha y (List.mem_cons_of_mem x hy))

/-- No event of `refreshInner` on any visible editor disposes a handle. -/
theorem refreshInnerEvents_no_dispose (e d : Bool) (editors : List Nat) (x : RenderEvent)
    (hx : x ∈ (editors.map (refreshInnerEvents e d)).flatten) : isDisposeEvent x = false := by
  simp only [List.mem_flatten, List.mem_map] at hx
  obtain ⟨l, ⟨ed, _, rfl⟩, hxl⟩ := hx
  unfold refreshInnerEvents at hxl
  rcases List.mem_append.mp hxl with h | h <;> split_ifs at h <;>
    simp_all [isDisposeEvent]

/-- No event of `createColorizationDecorations` disposes a handle. -/
theorem createColorizationDecorationsEvents_no_dispose (e d : Bool) (x : RenderEvent)
    (hx : x ∈ createColorizationDecorationsEvents e d) : isDisposeEvent x = false := by
  unfold createColorizationDecorationsEvents at hx
  rcases List.mem_append.mp hx with h | h <;> split_ifs at h <;>
    simp_all [isDisposeEvent]

/-- The disposal suffix creates and re-applies nothing. -/
theorem dispose_suffix_no_create (hi hd : Bool) (x : RenderEvent)
    (hx : x ∈ (if hi then [RenderEvent.disposeOldInactive] else [])
      ++ (if hd then [RenderEvent.disposeOldHandles] else [])) :
    isCreateOrApplyEvent x = false := by
  rcases List.mem_append.mp hx with h | h <;> split_ifs at h <;>
    simp_all [isCreateOrApplyEvent]

/-- Claim C2 (amended): on receipt of a classification result, the task body of
`updateColorizationRanges` creates the new decorations and re-applies the known
ranges to every visible editor before disposing any previously active handle,
for every combination of configuration flags and visible editors. -/
theorem updateColorizationRanges_dispose_only_after_reapply
    (enhanced dim hadInactive hadDecorations : Bool) (editors : List Nat) :
    noReapplyAfterDispose
      (updateColorizationRangesEvents enhanced dim hadInactive hadDecorations editors) = true := by
  have key := noReapplyAfterDispose_append
    ([RenderEvent.applyEditsCall, RenderEvent.purgeCall]
      ++ createColorizationDecorationsEvents enhanced dim
      ++ (editors.map (refreshInnerEvents enhanced dim)).flatten)
    ((if hadInactive then [RenderEvent.disposeOldInactive] else [])
      ++ (if hadDecorations then [RenderEvent.disposeOldHandles] else []))
    (fun x hx => by
      rcases List.mem_append.mp hx with h | h
      · rcases List.mem_append.mp h with h2 | h2
        · rcases List.mem_cons.mp h2 with rfl | h3
          · rfl
          · rcases List.mem_singleton.mp h3 with rfl
            rfl
        · exact createColorizationDecorationsEvents_no_dispose enhanced dim x h2
      · exact refreshInnerEvents_no_dispose enhanced dim editors x h)
    (fun x hx => dispose_suffix_no_create hadInactive hadDecorations x hx)
  simpa [updateColorizationRangesEvents, List.append_assoc] using key

/-- Claim C2 (counterexample): the task body of `onSettingsChanged` — the
style/configuration-change path — disposes the previously active handles
before creating the new ones and re-applying ranges; with all flags enabled and
one visible editor its trace violates the dispose-last discipline the claim
asserts for every handle-rebuilding settings change. -/
theorem onSettingsChanged_dispose_before_reapply_counterexample :
    noReapplyAfterDispose (onSettingsChangedEvents true true true true [0]) = false := by
  decide

end Colorization
